import Mathlib

/-!
Verification of the precursor-extraction core of the
PrecursorViewerStreamlitApp repository (`src/app.py`).

The source is embedded shallowly:

* mzML numeric fields become exact rationals (`ℚ` for m/z and masses,
  `ℤ` for charge states);
* the nested dictionaries that pyteomics hands to `extract_precursor_data`
  become `structure`s whose optional entries are `Option`s, and the
  Python `dict.get(key, default)` idiom becomes `Option.getD`;
* `extract_precursor_data`'s three result lists, built by `append` inside
  a triple-nested loop, become a fold over an explicit accumulator state;
* `get_summary_stats` and the charge-axis binning of
  `create_histogram_plots` become total Lean functions returning `Option`
  where Python `min`/`max` would raise on an empty list.
-/

namespace PrecursorViewer

/-- The proton mass constant hard-coded at `src/app.py:40`:
`1.007276466812` Da. -/
def PROTON_MASS : ℚ := 1007276466812 / 1000000000000

/-- One entry of a `selectedIonList`: both the `selected ion m/z` and the
`charge state` keys may be absent (`ion.get(...)` returns `None`). -/
structure SelectedIon where
  mz : Option ℚ
  chargeState : Option ℤ
deriving Repr, DecidableEq

/-- The dictionary stored under `selectedIonList`; its `selectedIon` key
may be absent (`.get('selectedIon', [])`). -/
structure SelectedIonListRec where
  selectedIon : Option (List SelectedIon)
deriving Repr, DecidableEq

/-- One entry of a `precursorList`; its `selectedIonList` key may be
absent (`.get('selectedIonList', {})`). -/
structure Precursor where
  selectedIonList : Option SelectedIonListRec
deriving Repr, DecidableEq

/-- The dictionary stored under `precursorList`; its `precursor` key may
be absent (`.get('precursor', [])`). -/
structure PrecursorListRec where
  precursor : Option (List Precursor)
deriving Repr, DecidableEq

/-- A decoded spectrum record: `ms level` and `precursorList` keys may
both be absent. -/
structure Spectrum where
  msLevel : Option ℤ
  precursorList : Option PrecursorListRec
deriving Repr, DecidableEq

/-- A decoded mzML document, as the ordered sequence of spectra the
pyteomics reader yields. -/
abbrev SpectralDocument := List Spectrum

/-- The three accumulator lists of `extract_precursor_data`
(`precursor_mz`, `charge_states`, `neutral_masses`). -/
structure ExtractState where
  precursor_mz : List ℚ
  charge_states : List ℤ
  neutral_masses : List ℚ
deriving Repr, DecidableEq

/-- The ion descriptors the code iterates for one precursor:
`precursor.get('selectedIonList', {}).get('selectedIon', [])`
(`src/app.py:27`). -/
def ionsOf (p : Precursor) : List SelectedIon :=
  ((p.selectedIonList.getD ⟨none⟩).selectedIon).getD []

/-- The precursor descriptors the code iterates for one spectrum:
`spectrum.get('precursorList', {}).get('precursor', [])`
(`src/app.py:23-24`). -/
def precursorsOf (sp : Spectrum) : List Precursor :=
  ((sp.precursorList.getD ⟨none⟩).precursor).getD []

/-- The body of the innermost loop of `extract_precursor_data`
(`src/app.py:29-41`): read `mz` and `charge`; when both are present,
append them together with the derived neutral mass to the three
accumulator lists, otherwise leave the state unchanged. -/
def processIon (s : ExtractState) (ion : SelectedIon) : ExtractState :=
  match ion.mz, ion.chargeState with
  | some mz, some charge =>
      { precursor_mz := s.precursor_mz ++ [mz]
        charge_states := s.charge_states ++ [charge]
        neutral_masses :=
          s.neutral_masses ++ [(mz * charge) - (charge * PROTON_MASS)] }
  | _, _ => s

/-- The middle loop of `extract_precursor_data` (`src/app.py:26-41`). -/
def processPrecursor (s : ExtractState) (p : Precursor) : ExtractState :=
  (ionsOf p).foldl processIon s

/-- The outer loop body of `extract_precursor_data` (`src/app.py:20-41`):
only spectra whose `ms level` equals 2 are processed. -/
def processSpectrum (s : ExtractState) (sp : Spectrum) : ExtractState :=
  if sp.msLevel = some 2 then (precursorsOf sp).foldl processPrecursor s
  else s

/-- `extract_precursor_data` (`src/app.py:8-43`): walk the document and
return the tuple `(precursor_mz, charge_states, neutral_masses)`. -/
def extract_precursor_data (doc : SpectralDocument) : ExtractState :=
  doc.foldl processSpectrum ⟨[], [], []⟩

/-! ### A per-ion observation view of the extractor

`Observation` packages the three values appended for one complete ion,
letting the three parallel output lists be described as projections of a
single ordered observation sequence. -/

/-- One emitted record: m/z, charge, and the derived neutral mass. -/
structure Observation where
  mz : ℚ
  charge : ℤ
  neutral_mass : ℚ
deriving Repr, DecidableEq

/-- The observations emitted for a single ion descriptor: one when both
fields are present, none otherwise. -/
def ionObs (ion : SelectedIon) : List Observation :=
  match ion.mz, ion.chargeState with
  | some mz, some charge =>
      [⟨mz, charge, (mz * charge) - (charge * PROTON_MASS)⟩]
  | _, _ => []

/-- The observations emitted for a single precursor descriptor. -/
def precursorObs (p : Precursor) : List Observation :=
  (ionsOf p).flatMap ionObs

/-- The observations emitted for a single spectrum. -/
def spectrumObs (sp : Spectrum) : List Observation :=
  if sp.msLevel = some 2 then (precursorsOf sp).flatMap precursorObs else []

/-- All observations emitted for a document, in document order. -/
def docObs (doc : SpectralDocument) : List Observation :=
  doc.flatMap spectrumObs

/-- An ion descriptor carrying both `selected ion m/z` and `charge state`. -/
def completeIon (ion : SelectedIon) : Bool :=
  ion.mz.isSome && ion.chargeState.isSome

/-- The observation built from a complete ion descriptor (the `getD 0`
defaults are never reached on complete ions). -/
def obsOfIon (ion : SelectedIon) : Observation :=
  ⟨ion.mz.getD 0, ion.chargeState.getD 0,
   (ion.mz.getD 0) * (ion.chargeState.getD 0 : ℤ)
     - ((ion.chargeState.getD 0 : ℤ) : ℚ) * PROTON_MASS⟩

/-- The complete ion descriptors of a document that lie inside MS-level-2
spectra, in (scan, precursor, ion) traversal order. -/
def qualifyingIons (doc : SpectralDocument) : List SelectedIon :=
  doc.flatMap fun sp =>
    if sp.msLevel = some 2 then
      (precursorsOf sp).flatMap fun p => (ionsOf p).filter completeIon
    else []

/-- The qualifying (spectrum, precursor, ion) triples of a document, in
lexicographic (scan, precursor, ion) traversal order. -/
def qualifyingTriples (doc : SpectralDocument) :
    List (Spectrum × Precursor × SelectedIon) :=
  doc.flatMap fun sp =>
    if sp.msLevel = some 2 then
      (precursorsOf sp).flatMap fun p =>
        ((ionsOf p).filter completeIon).map fun ion => (sp, p, ion)
    else []

/-! ### Refinement: the fold-based extractor equals the observation view -/

/-- Projections of an observation list into the accumulator shape. -/
def stateOf (s : ExtractState) (l : List Observation) : ExtractState :=
  ⟨s.precursor_mz ++ l.map Observation.mz,
   s.charge_states ++ l.map Observation.charge,
   s.neutral_masses ++ l.map Observation.neutral_mass⟩

lemma processIon_eq_stateOf (s : ExtractState) (ion : SelectedIon) :
    processIon s ion = stateOf s (ionObs ion) := by
  cases s
  obtain ⟨mz, charge⟩ := ion
  cases mz <;> cases charge <;> simp [processIon, ionObs, stateOf]

lemma foldl_stateOf {α : Type} (f : ExtractState → α → ExtractState)
    (g : α → List Observation)
    (hf : ∀ s a, f s a = stateOf s (g a)) :
    ∀ (l : List α) (s : ExtractState),
      l.foldl f s = stateOf s (l.flatMap g) := by
  intro l
  induction l with
  | nil => intro s; cases s; simp [stateOf]
  | cons a t ih =>
      intro s
      cases s
      simp only [List.foldl_cons, hf, ih, stateOf, List.flatMap_cons,
        List.map_append, List.append_assoc]

lemma processPrecursor_eq_stateOf (s : ExtractState) (p : Precursor) :
    processPrecursor s p = stateOf s (precursorObs p) :=
  foldl_stateOf processIon ionObs processIon_eq_stateOf (ionsOf p) s

lemma processSpectrum_eq_stateOf (s : ExtractState) (sp : Spectrum) :
    processSpectrum s sp = stateOf s (spectrumObs sp) := by
  by_cases h : sp.msLevel = some 2
  · simp only [processSpectrum, spectrumObs, if_pos h]
    exact foldl_stateOf processPrecursor precursorObs
      processPrecursor_eq_stateOf (precursorsOf sp) s
  · cases s; simp [processSpectrum, spectrumObs, if_neg h, stateOf]

/-- The extractor's three output lists are exactly the componentwise
projections of the ordered observation sequence. -/
lemma extract_eq_docObs (doc : SpectralDocument) :
    extract_precursor_data doc =
      ⟨(docObs doc).map Observation.mz,
       (docObs doc).map Observation.charge,
       (docObs doc).map Observation.neutral_mass⟩ := by
  have h := foldl_stateOf processSpectrum spectrumObs
    processSpectrum_eq_stateOf doc ⟨[], [], []⟩
  simpa [extract_precursor_data, stateOf, docObs] using h

lemma ionObs_eq_if (ion : SelectedIon) :
    ionObs ion = if completeIon ion then [obsOfIon ion] else [] := by
  obtain ⟨mz, charge⟩ := ion
  cases mz <;> cases charge <;> simp [ionObs, completeIon, obsOfIon]

lemma flatMap_if_singleton {α β : Type} (p : α → Bool) (f : α → β) :
    ∀ l : List α,
      (l.flatMap fun x => if p x then [f x] else []) = (l.filter p).map f := by
  intro l
  induction l with
  | nil => simp
  | cons a t ih =>
      by_cases h : p a <;>
        simp [List.flatMap_cons, List.filter_cons, h, ih]

/-- The observation sequence is the qualifying-ion sequence, observed. -/
lemma docObs_eq_map_qualifyingIons (doc : SpectralDocument) :
    docObs doc = (qualifyingIons doc).map obsOfIon := by
  unfold docObs qualifyingIons
  induction doc with
  | nil => simp
  | cons sp rest ih =>
      simp only [List.flatMap_cons, List.map_append, ih]
      congr 1
      by_cases h : sp.msLevel = some 2
      · simp only [spectrumObs, if_pos h]
        induction (precursorsOf sp) with
        | nil => simp
        | cons p ps ihp =>
            simp only [List.flatMap_cons, List.map_append, ihp]
            congr 1
            simp only [precursorObs]
            rw [show (ionsOf p).flatMap ionObs =
                (ionsOf p).flatMap fun ion =>
                  if completeIon ion then [obsOfIon ion] else []
              from List.flatMap_congr fun ion _ => ionObs_eq_if ion]
            exact flatMap_if_singleton completeIon obsOfIon (ionsOf p)
      · simp [spectrumObs, if_neg h]

/-- The observation sequence is also the qualifying-triple sequence,
observed through its ion component. -/
lemma docObs_eq_map_qualifyingTriples (doc : SpectralDocument) :
    docObs doc = (qualifyingTriples doc).map fun t => obsOfIon t.2.2 := by
  rw [docObs_eq_map_qualifyingIons]
  unfold qualifyingIons qualifyingTriples
  induction doc with
  | nil => simp
  | cons sp rest ih =>
      simp only [List.flatMap_cons, List.map_append, ih]
      congr 1
      by_cases h : sp.msLevel = some 2
      · simp only [if_pos h, List.map_flatMap, List.map_map]
        rfl
      · simp [if_neg h]

/-! ### Aggregator (`get_summary_stats`, `src/app.py:78-90`) and the
charge-axis binning of `create_histogram_plots` (`src/app.py:66-67`) -/

/-- `sorted(set(xs))` for integer lists: the distinct values ascending. -/
def sortedSet (xs : List ℤ) : List ℤ :=
  xs.toFinset.sort (· ≤ ·)

/-- `np.arange(start, stop, 1)` over exact rationals: the values
`start + k` for `0 ≤ k < ⌈stop − start⌉`. -/
def arangeStep1 (start stop : ℚ) : List ℚ :=
  (List.range (⌈stop - start⌉).toNat).map fun k : ℕ => start + (k : ℚ)

/-- The charge-axis bin edges of `create_histogram_plots`
(`src/app.py:66-67`): `np.arange(min(unique) − 0.5, max(unique) + 1.5, 1)`
over `unique = sorted(set(charge_states))`; `none` models the `ValueError`
Python's `min`/`max` raise on an empty collection. -/
def charge_bins (charge_states : List ℤ) : Option (List ℚ) :=
  match (sortedSet charge_states).min?, (sortedSet charge_states).max? with
  | some lo, some hi =>
      some (arangeStep1 ((lo : ℚ) - 1/2) ((hi : ℚ) + 3/2))
  | _, _ => none

/-- The number of charge states falling in the half-open bin
`[lo, hi)`. -/
def countInBin (charge_states : List ℤ) (lo hi : ℚ) : ℕ :=
  (charge_states.filter fun c => decide (lo ≤ (c : ℚ)) &&
    decide ((c : ℚ) < hi)).length

/-- The summary record assembled by `get_summary_stats`. -/
structure SummaryStats where
  total_ms2_spectra : ℕ
  mz_lo : ℚ
  mz_hi : ℚ
  mass_lo : ℚ
  mass_hi : ℚ
  charge_states_found : List ℤ
  mean_mz : ℚ
  mean_mass : ℚ
deriving Repr, DecidableEq

/-- `get_summary_stats` (`src/app.py:78-90`): count, m/z range, neutral
mass range, distinct charge states ascending, and the two means; `none`
models the `ValueError` Python's `min` raises on empty input. -/
def get_summary_stats (precursor_mz : List ℚ) (charge_states : List ℤ)
    (neutral_masses : List ℚ) : Option SummaryStats :=
  match precursor_mz.min?, precursor_mz.max?,
      neutral_masses.min?, neutral_masses.max? with
  | some a, some b, some c, some d =>
      some { total_ms2_spectra := precursor_mz.length
             mz_lo := a
             mz_hi := b
             mass_lo := c
             mass_hi := d
             charge_states_found := sortedSet charge_states
             mean_mz := precursor_mz.sum / precursor_mz.length
             mean_mass := neutral_masses.sum / neutral_masses.length }
  | _, _, _, _ => none

/-! ### Helper lemmas about `List.min?` and `List.max?` -/

lemma foldl_min_le {α : Type} [LinearOrder α] :
    ∀ (l : List α) (a x : α), x ∈ a :: l → l.foldl min a ≤ x := by
  intro l
  induction l with
  | nil => intro a x hx; simp at hx; simp [hx]
  | cons b t ih =>
      intro a x hx
      rcases List.mem_cons.mp hx with h | h
      · subst h
        calc t.foldl min (min x b) ≤ min x b :=
              ih (min x b) (min x b) (List.mem_cons_self _ _)
          _ ≤ x := min_le_left _ _
      · rcases List.mem_cons.mp h with h | h
        · subst h
          calc t.foldl min (min a x) ≤ min a x :=
                ih (min a x) (min a x) (List.mem_cons_self _ _)
            _ ≤ x := min_le_right _ _
        · exact ih (min a b) x (List.mem_cons_of_mem _ h)

lemma foldl_min_mem {α : Type} [LinearOrder α] :
    ∀ (l : List α) (a : α), l.foldl min a ∈ a :: l := by
  intro l
  induction l with
  | nil => intro a; simp
  | cons b t ih =>
      intro a
      have h := ih (min a b)
      rcases List.mem_cons.mp h with h | h
      · rcases min_choice a b with hab | hab <;> rw [List.foldl_cons, h, hab]
        · exact List.mem_cons_self _ _
        · exact List.mem_cons_of_mem _ (List.mem_cons_self _ _)
      · exact List.mem_cons_of_mem _ (List.mem_cons_of_mem _ h)

lemma min?_le_of_mem {α : Type} [LinearOrder α] {l : List α} {m x : α}
    (hm : l.min? = some m) (hx : x ∈ l) : m ≤ x := by
  cases l with
  | nil => simp at hx
  | cons a t =>
      have hdef : (a :: t).min? = some (t.foldl min a) := rfl
      rw [hdef] at hm
      exact (Option.some_inj.mp hm) ▸ foldl_min_le t a x hx

lemma min?_mem_of_eq_some {α : Type} [LinearOrder α] {l : List α} {m : α}
    (hm : l.min? = some m) : m ∈ l := by
  cases l with
  | nil => simp [List.min?] at hm
  | cons a t =>
      have hdef : (a :: t).min? = some (t.foldl min a) := rfl
      rw [hdef] at hm
      exact (Option.some_inj.mp hm) ▸ foldl_min_mem t a

lemma min?_isSome_of_ne_nil {α : Type} [LinearOrder α] {l : List α}
    (h : l ≠ []) : ∃ m, l.min? = some m := by
  cases l with
  | nil => exact absurd rfl h
  | cons a t => exact ⟨t.foldl min a, rfl⟩

lemma foldl_max_ge {α : Type} [LinearOrder α] :
    ∀ (l : List α) (a x : α), x ∈ a :: l → x ≤ l.foldl max a := by
  intro l
  induction l with
  | nil => intro a x hx; simp at hx; simp [hx]
  | cons b t ih =>
      intro a x hx
      rcases List.mem_cons.mp hx with h | h
      · subst h
        calc x ≤ max x b := le_max_left _ _
          _ ≤ t.foldl max (max x b) :=
              ih (max x b) (max x b) (List.mem_cons_self _ _)
      · rcases List.mem_cons.mp h with h | h
        · subst h
          calc x ≤ max a x := le_max_right _ _
            _ ≤ t.foldl max (max a x) :=
                ih (max a x) (max a x) (List.mem_cons_self _ _)
        · exact ih (max a b) x (List.mem_cons_of_mem _ h)

lemma foldl_max_mem {α : Type} [LinearOrder α] :
    ∀ (l : List α) (a : α), l.foldl max a ∈ a :: l := by
  intro l
  induction l with
  | nil => intro a; simp
  | cons b t ih =>
      intro a
      have h := ih (max a b)
      rcases List.mem_cons.mp h with h | h
      · rcases max_choice a b with hab | hab <;> rw [List.foldl_cons, h, hab]
        · exact List.mem_cons_self _ _
        · exact List.mem_cons_of_mem _ (List.mem_cons_self _ _)
      · exact List.mem_cons_of_mem _ (List.mem_cons_of_mem _ h)

lemma le_max?_of_mem {α : Type} [LinearOrder α] {l : List α} {m x : α}
    (hm : l.max? = some m) (hx : x ∈ l) : x ≤ m := by
  cases l with
  | nil => simp at hx
  | cons a t =>
      have hdef : (a :: t).max? = some (t.foldl max a) := rfl
      rw [hdef] at hm
      exact (Option.some_inj.mp hm) ▸ foldl_max_ge t a x hx

lemma max?_mem_of_eq_some {α : Type} [LinearOrder α] {l : List α} {m : α}
    (hm : l.max? = some m) : m ∈ l := by
  cases l with
  | nil => simp [List.max?] at hm
  | cons a t =>
      have hdef : (a :: t).max? = some (t.foldl max a) := rfl
      rw [hdef] at hm
      exact (Option.some_inj.mp hm) ▸ foldl_max_mem t a

lemma max?_isSome_of_ne_nil {α : Type} [LinearOrder α] {l : List α}
    (h : l ≠ []) : ∃ m, l.max? = some m := by
  cases l with
  | nil => exact absurd rfl h
  | cons a t => exact ⟨t.foldl max a, rfl⟩

/-- `min?` only depends on the set of members. -/
lemma min?_congr_mem {α : Type} [LinearOrder α] {l₁ l₂ : List α}
    (h : ∀ x, x ∈ l₁ ↔ x ∈ l₂) : l₁.min? = l₂.min? := by
  cases h₁ : l₁.min? with
  | none =>
      cases h₂ : l₂.min? with
      | none => rfl
      | some m =>
          have hm := min?_mem_of_eq_some h₂
          have : m ∈ l₁ := (h m).mpr hm
          cases l₁ with
          | nil => simp at this
          | cons a t => simp [List.min?] at h₁
  | some m =>
      cases h₂ : l₂.min? with
      | none =>
          have hm := min?_mem_of_eq_some h₁
          have hm₂ : m ∈ l₂ := (h m).mp hm
          cases l₂ with
          | nil => simp at hm₂
          | cons a t => simp [List.min?] at h₂
      | some m' =>
          have le₁ : m ≤ m' :=
            min?_le_of_mem h₁ ((h m').mpr (min?_mem_of_eq_some h₂))
          have le₂ : m' ≤ m :=
            min?_le_of_mem h₂ ((h m).mp (min?_mem_of_eq_some h₁))
          rw [le_antisymm le₁ le₂]

/-- `max?` only depends on the set of members. -/
lemma max?_congr_mem {α : Type} [LinearOrder α] {l₁ l₂ : List α}
    (h : ∀ x, x ∈ l₁ ↔ x ∈ l₂) : l₁.max? = l₂.max? := by
  cases h₁ : l₁.max? with
  | none =>
      cases h₂ : l₂.max? with
      | none => rfl
      | some m =>
          have hm := max?_mem_of_eq_some h₂
          have : m ∈ l₁ := (h m).mpr hm
          cases l₁ with
          | nil => simp at this
          | cons a t => simp [List.max?] at h₁
  | some m =>
      cases h₂ : l₂.max? with
      | none =>
          have hm := max?_mem_of_eq_some h₁
          have hm₂ : m ∈ l₂ := (h m).mp hm
          cases l₂ with
          | nil => simp at hm₂
          | cons a t => simp [List.max?] at h₂
      | some m' =>
          have le₁ : m' ≤ m :=
            le_max?_of_mem h₁ ((h m').mpr (max?_mem_of_eq_some h₂))
          have le₂ : m ≤ m' :=
            le_max?_of_mem h₂ ((h m).mp (max?_mem_of_eq_some h₁))
          rw [le_antisymm le₂ le₁]

/-- Membership in `sortedSet` is membership in the original list. -/
lemma mem_sortedSet {xs : List ℤ} {z : ℤ} : z ∈ sortedSet xs ↔ z ∈ xs := by
  simp [sortedSet, Finset.mem_sort, List.mem_toFinset]

/-- Every emitted observation satisfies the neutral-mass formula. -/
lemma neutral_mass_of_mem_docObs {doc : SpectralDocument} {o : Observation}
    (ho : o ∈ docObs doc) :
    o.neutral_mass = o.mz * (o.charge : ℚ) - (o.charge : ℚ) * PROTON_MASS := by
  rw [docObs_eq_map_qualifyingIons] at ho
  obtain ⟨ion, _, rfl⟩ := List.mem_map.mp ho
  rfl

/-- A spectrum whose `ms level` is not `2` emits nothing. -/
lemma spectrumObs_eq_nil_of_not_ms2 {sp : Spectrum}
    (h : sp.msLevel ≠ some 2) : spectrumObs sp = [] := by
  simp [spectrumObs, if_neg h]

/-- A document holding a single MS2 spectrum with one precursor and one
selected ion carrying the given m/z and charge. -/
def mkIonDoc (mzv : ℚ) (z : ℤ) : SpectralDocument :=
  [⟨some 2, some ⟨some [⟨some ⟨some [⟨some mzv, some z⟩]⟩⟩]⟩⟩]

/-- An MS1 spectrum that nevertheless carries full precursor content. -/
def msOneSpectrum : Spectrum :=
  ⟨some 1, some ⟨some [⟨some ⟨some [⟨some 500, some 2⟩]⟩⟩]⟩⟩

/-! ### The claims -/

/-- C1: for every index of the extractor's output, the derived neutral
mass equals `mz * charge − charge * PROTON_MASS`, with
`PROTON_MASS = 1.007276466812` Da a fixed constant. -/
theorem extractor_neutral_mass_formula (doc : SpectralDocument) (i : ℕ)
    (h : i < (extract_precursor_data doc).neutral_masses.length) :
    (∃ (hm : i < (extract_precursor_data doc).precursor_mz.length)
       (hc : i < (extract_precursor_data doc).charge_states.length),
      (extract_precursor_data doc).neutral_masses.get ⟨i, h⟩ =
        (extract_precursor_data doc).precursor_mz.get ⟨i, hm⟩ *
          (((extract_precursor_data doc).charge_states.get ⟨i, hc⟩ : ℤ) : ℚ)
        - (((extract_precursor_data doc).charge_states.get ⟨i, hc⟩ : ℤ) : ℚ)
            * PROTON_MASS) ∧
    PROTON_MASS = 1.007276466812 := by
  refine ⟨?_, by norm_num [PROTON_MASS]⟩
  have he := extract_eq_docObs doc
  have hlen : (extract_precursor_data doc).neutral_masses.length
      = (docObs doc).length := by rw [he]; simp
  have hm : i < (extract_precursor_data doc).precursor_mz.length := by
    rw [he]; simpa using hlen ▸ h
  have hc : i < (extract_precursor_data doc).charge_states.length := by
    rw [he]; simpa using hlen ▸ h
  refine ⟨hm, hc, ?_⟩
  have hio : i < (docObs doc).length := hlen ▸ h
  have ho : (docObs doc).get ⟨i, hio⟩ ∈ docObs doc := List.get_mem _ _ hio
  have hform := neutral_mass_of_mem_docObs ho
  simp only [he, List.get_eq_getElem, List.getElem_map]
  exact hform

/-- C1 witness: the formula at a concrete one-ion document. -/
theorem extractor_neutral_mass_formula_witness :
    (∃ (hm : 0 < (extract_precursor_data (mkIonDoc 500 2)).precursor_mz.length)
       (hc : 0 < (extract_precursor_data (mkIonDoc 500 2)).charge_states.length),
      (extract_precursor_data (mkIonDoc 500 2)).neutral_masses.get
          ⟨0, by decide⟩ =
        (extract_precursor_data (mkIonDoc 500 2)).precursor_mz.get ⟨0, hm⟩ *
          (((extract_precursor_data (mkIonDoc 500 2)).charge_states.get
            ⟨0, hc⟩ : ℤ) : ℚ)
        - (((extract_precursor_data (mkIonDoc 500 2)).charge_states.get
            ⟨0, hc⟩ : ℤ) : ℚ) * PROTON_MASS) ∧
    PROTON_MASS = 1.007276466812 :=
  extractor_neutral_mass_formula (mkIonDoc 500 2) 0 (by decide)

/-- C2: a spectrum whose MS level is absent or not `2` contributes no
observations: removing it from any document leaves the extractor's output
unchanged, and processing it is the identity on the accumulator. -/
theorem non_ms2_spectra_emit_nothing (pre post : SpectralDocument)
    (sp : Spectrum) (h : sp.msLevel ≠ some 2) :
    extract_precursor_data (pre ++ sp :: post)
      = extract_precursor_data (pre ++ post) ∧
    spectrumObs sp = [] ∧
    (∀ s : ExtractState, processSpectrum s sp = s) := by
  have hz : spectrumObs sp = [] := spectrumObs_eq_nil_of_not_ms2 h
  refine ⟨?_, hz, fun s => by simp [processSpectrum, if_neg h]⟩
  rw [extract_eq_docObs, extract_eq_docObs]
  simp [docObs, List.flatMap_append, List.flatMap_cons, hz]

/-- C2 witness: an MS1 spectrum with full precursor content is skipped. -/
theorem non_ms2_spectra_emit_nothing_witness :
    extract_precursor_data ([] ++ msOneSpectrum :: [])
      = extract_precursor_data ([] ++ []) ∧
    spectrumObs msOneSpectrum = [] ∧
    (∀ s : ExtractState, processSpectrum s msOneSpectrum = s) :=
  non_ms2_spectra_emit_nothing [] [] msOneSpectrum (by decide)

/-- C3: an ion descriptor missing `mz` or `charge` yields no observation,
and the extractor's output count equals the number of complete ion
descriptors inside MS-level-2 spectra. -/
theorem incomplete_ions_skipped (ion : SelectedIon) (doc : SpectralDocument)
    (h : ion.mz = none ∨ ion.chargeState = none) :
    ionObs ion = [] ∧
    (extract_precursor_data doc).precursor_mz.length
      = (qualifyingIons doc).length := by
  constructor
  · obtain ⟨mz, charge⟩ := ion
    rcases h with h | h <;> simp only at h <;> subst h
    · cases charge <;> rfl
    · cases mz <;> rfl
  · rw [extract_eq_docObs]
    simp [docObs_eq_map_qualifyingIons]

/-- C3 witness: a charge-only ion at a concrete document. -/
theorem incomplete_ions_skipped_witness :
    ionObs ⟨none, some 2⟩ = [] ∧
    (extract_precursor_data (mkIonDoc 500 2)).precursor_mz.length
      = (qualifyingIons (mkIonDoc 500 2)).length :=
  incomplete_ions_skipped ⟨none, some 2⟩ (mkIonDoc 500 2) (Or.inl rfl)

/-- C4: the extractor's output is the per-spectrum observation blocks in
document order, the i-th observation being the i-th qualifying
(spectrum, precursor, ion) triple of the lexicographic traversal; hence
permuting a document's spectra permutes the output blocks identically. -/
theorem output_order_lexicographic (doc : SpectralDocument) :
    docObs doc = (qualifyingTriples doc).map (fun t => obsOfIon t.2.2) ∧
    extract_precursor_data doc =
      ⟨(docObs doc).map Observation.mz,
       (docObs doc).map Observation.charge,
       (docObs doc).map Observation.neutral_mass⟩ ∧
    docObs doc = (doc.map spectrumObs).flatten :=
  ⟨docObs_eq_map_qualifyingTriples doc, extract_eq_docObs doc, rfl⟩

/-- C5: an MS2 spectrum whose precursor list is absent or empty yields
zero observations without error; the nested container accesses are total
and default to the empty collection. -/
theorem ms2_empty_precursor_list_safe (sp : Spectrum)
    (h2 : sp.msLevel = some 2)
    (h : sp.precursorList = none ∨ precursorsOf sp = []) :
    spectrumObs sp = [] ∧
    (∀ s : ExtractState, processSpectrum s sp = s) ∧
    extract_precursor_data [sp] = ⟨[], [], []⟩ ∧
    (∀ lvl : Option ℤ, precursorsOf ⟨lvl, none⟩ = []) ∧
    ionsOf ⟨none⟩ = [] := by
  have hp : precursorsOf sp = [] := by
    rcases h with h | h
    · simp [precursorsOf, h]
    · exact h
  have hobs : spectrumObs sp = [] := by simp [spectrumObs, if_pos h2, hp]
  have hproc : ∀ s : ExtractState, processSpectrum s sp = s := by
    intro s; simp [processSpectrum, if_pos h2, hp]
  refine ⟨hobs, hproc, ?_, fun lvl => rfl, rfl⟩
  show processSpectrum ⟨[], [], []⟩ sp = ⟨[], [], []⟩
  exact hproc _

/-- C5 witness: an MS2 spectrum with no `precursorList` key at all. -/
theorem ms2_empty_precursor_list_safe_witness :
    spectrumObs ⟨some 2, none⟩ = [] ∧
    (∀ s : ExtractState, processSpectrum s ⟨some 2, none⟩ = s) ∧
    extract_precursor_data [⟨some 2, none⟩] = ⟨[], [], []⟩ ∧
    (∀ lvl : Option ℤ, precursorsOf ⟨lvl, none⟩ = []) ∧
    ionsOf ⟨none⟩ = [] :=
  ms2_empty_precursor_list_safe ⟨some 2, none⟩ rfl (Or.inl rfl)

/-- C6: for every non-empty charge collection the binning helper produces
edges at `v − 0.5` and `v + 0.5` for every integer `v` from the minimum to
the maximum observed charge; for charges `{2,3,5}` the edges are
`[1.5, 2.5, 3.5, 4.5, 5.5]`, four bins, with 2, 3, 5 isolated and the bin
for 4 empty. -/
theorem charge_bin_edges (cs : List ℤ) (hne : cs ≠ []) :
    (∃ lo hi edges, cs.min? = some lo ∧ cs.max? = some hi ∧
      charge_bins cs = some edges ∧
      edges = (List.range (hi - lo + 2).toNat).map
        (fun k : ℕ => (lo : ℚ) - 1/2 + k) ∧
      ∀ v : ℤ, lo ≤ v → v ≤ hi →
        ((v : ℚ) - 1/2) ∈ edges ∧ ((v : ℚ) + 1/2) ∈ edges) ∧
    charge_bins [2, 3, 5] = some [3/2, 5/2, 7/2, 9/2, 11/2] ∧
    countInBin [2, 3, 5] (3/2) (5/2) = 1 ∧
    countInBin [2, 3, 5] (5/2) (7/2) = 1 ∧
    countInBin [2, 3, 5] (7/2) (9/2) = 0 ∧
    countInBin [2, 3, 5] (9/2) (11/2) = 1 := by
  constructor
  · obtain ⟨lo, hlo⟩ := min?_isSome_of_ne_nil hne
    obtain ⟨hi, hhi⟩ := max?_isSome_of_ne_nil hne
    have hsmin : (sortedSet cs).min? = some lo :=
      (min?_congr_mem fun x => mem_sortedSet).trans hlo
    have hsmax : (sortedSet cs).max? = some hi :=
      (max?_congr_mem fun x => mem_sortedSet).trans hhi
    have hlohi : lo ≤ hi :=
      le_trans (min?_le_of_mem hlo (max?_mem_of_eq_some hhi)) le_rfl
    have hceil : ⌈((hi : ℚ) + 3/2) - ((lo : ℚ) - 1/2)⌉ = hi - lo + 2 := by
      have hq : ((hi : ℚ) + 3/2) - ((lo : ℚ) - 1/2)
          = ((hi - lo + 2 : ℤ) : ℚ) := by push_cast; ring
      rw [hq, Int.ceil_intCast]
    refine ⟨lo, hi, arangeStep1 ((lo : ℚ) - 1/2) ((hi : ℚ) + 3/2),
      hlo, hhi, ?_, ?_, ?_⟩
    · simp only [charge_bins, hsmin, hsmax]
    · simp only [arangeStep1, hceil]
    · simp only [arangeStep1, hceil]
      intro v hlov hvhi
      constructor
      · refine List.mem_map.mpr ⟨(v - lo).toNat, List.mem_range.mpr ?_, ?_⟩
        · omega
        · have hcast : (((v - lo).toNat : ℤ) : ℚ) = ((v : ℚ) - lo) := by
            rw [Int.toNat_of_nonneg (by omega)]; push_cast; ring
          push_cast at hcast ⊢
          rw [hcast]; ring
      · refine List.mem_map.mpr ⟨(v - lo + 1).toNat, List.mem_range.mpr ?_, ?_⟩
        · omega
        · have hcast : (((v - lo + 1).toNat : ℤ) : ℚ) = ((v : ℚ) - lo + 1) := by
            rw [Int.toNat_of_nonneg (by omega)]; push_cast; ring
          push_cast at hcast ⊢
          rw [hcast]; ring
  · have hmin : (sortedSet [2, 3, 5]).min? = some 2 :=
      (min?_congr_mem fun x => mem_sortedSet).trans (by decide)
    have hmax : (sortedSet [2, 3, 5]).max? = some 5 :=
      (max?_congr_mem fun x => mem_sortedSet).trans (by decide)
    have hc5 : ⌈(((5 : ℤ) : ℚ) + 3/2) - (((2 : ℤ) : ℚ) - 1/2)⌉ = (5 : ℤ) := by
      norm_num
    have hc : ⌈(((5 : ℤ) : ℚ) + 3/2) - (((2 : ℤ) : ℚ) - 1/2)⌉.toNat = 5 := by
      rw [hc5]; rfl
    refine ⟨?_, ?_, ?_, ?_, ?_⟩
    · simp only [charge_bins, hmin, hmax, arangeStep1, hc, Option.some_inj]
      norm_num [List.range_succ]
    all_goals
      norm_num [countInBin, List.filter_cons, List.filter_nil]

/-- C6 witness: the general edge description at the concrete charge list
`[2, 3, 5]`. -/
theorem charge_bin_edges_witness :
    (∃ lo hi edges, ([2, 3, 5] : List ℤ).min? = some lo ∧
      ([2, 3, 5] : List ℤ).max? = some hi ∧
      charge_bins [2, 3, 5] = some edges ∧
      edges = (List.range (hi - lo + 2).toNat).map
        (fun k : ℕ => (lo : ℚ) - 1/2 + k) ∧
      ∀ v : ℤ, lo ≤ v → v ≤ hi →
        ((v : ℚ) - 1/2) ∈ edges ∧ ((v : ℚ) + 1/2) ∈ edges) ∧
    charge_bins [2, 3, 5] = some [3/2, 5/2, 7/2, 9/2, 11/2] ∧
    countInBin [2, 3, 5] (3/2) (5/2) = 1 ∧
    countInBin [2, 3, 5] (5/2) (7/2) = 1 ∧
    countInBin [2, 3, 5] (7/2) (9/2) = 0 ∧
    countInBin [2, 3, 5] (9/2) (11/2) = 1 :=
  charge_bin_edges [2, 3, 5] (by decide)

/-- C7: for a non-empty observation collection the summary statistics
report the exact count, bounds enclosing every m/z and neutral mass, and
an ascending duplicate-free list of exactly the observed charges. -/
theorem summary_stats_sound (obs : List Observation) (hne : obs ≠ []) :
    ∃ st, get_summary_stats (obs.map Observation.mz)
        (obs.map Observation.charge) (obs.map Observation.neutral_mass)
        = some st ∧
      st.total_ms2_spectra = obs.length ∧
      (∀ o ∈ obs, st.mz_lo ≤ o.mz ∧ o.mz ≤ st.mz_hi ∧
        st.mass_lo ≤ o.neutral_mass ∧ o.neutral_mass ≤ st.mass_hi) ∧
      st.charge_states_found.Sorted (· ≤ ·) ∧
      st.charge_states_found.Nodup ∧
      (∀ z : ℤ, z ∈ st.charge_states_found ↔
        z ∈ obs.map Observation.charge) := by
  have hmz : obs.map Observation.mz ≠ [] := by
    simpa using hne
  have hnm : obs.map Observation.neutral_mass ≠ [] := by
    simpa using hne
  obtain ⟨a, ha⟩ := min?_isSome_of_ne_nil hmz
  obtain ⟨b, hb⟩ := max?_isSome_of_ne_nil hmz
  obtain ⟨c, hc⟩ := min?_isSome_of_ne_nil hnm
  obtain ⟨d, hd⟩ := max?_isSome_of_ne_nil hnm
  refine ⟨⟨(obs.map Observation.mz).length, a, b, c, d,
      sortedSet (obs.map Observation.charge),
      (obs.map Observation.mz).sum / (obs.map Observation.mz).length,
      (obs.map Observation.neutral_mass).sum
        / (obs.map Observation.neutral_mass).length⟩,
    ?_, ?_, ?_, ?_, ?_, ?_⟩
  · simp only [get_summary_stats, ha, hb, hc, hd]
  · simp
  · intro o ho
    exact ⟨min?_le_of_mem ha (List.mem_map_of_mem _ ho),
      le_max?_of_mem hb (List.mem_map_of_mem _ ho),
      min?_le_of_mem hc (List.mem_map_of_mem _ ho),
      le_max?_of_mem hd (List.mem_map_of_mem _ ho)⟩
  · show (sortedSet (obs.map Observation.charge)).Sorted (· ≤ ·)
    exact Finset.sort_sorted _ _
  · show (sortedSet (obs.map Observation.charge)).Nodup
    exact Finset.sort_nodup _ _
  · intro z
    show z ∈ sortedSet (obs.map Observation.charge) ↔ _
    exact mem_sortedSet

/-- C7 witness: the summary of a single concrete observation. -/
theorem summary_stats_sound_witness :
    ∃ st, get_summary_stats
        (([⟨500, 2, 997⟩] : List Observation).map Observation.mz)
        (([⟨500, 2, 997⟩] : List Observation).map Observation.charge)
        (([⟨500, 2, 997⟩] : List Observation).map Observation.neutral_mass)
        = some st ∧
      st.total_ms2_spectra = ([⟨500, 2, 997⟩] : List Observation).length ∧
      (∀ o ∈ ([⟨500, 2, 997⟩] : List Observation),
        st.mz_lo ≤ o.mz ∧ o.mz ≤ st.mz_hi ∧
        st.mass_lo ≤ o.neutral_mass ∧ o.neutral_mass ≤ st.mass_hi) ∧
      st.charge_states_found.Sorted (· ≤ ·) ∧
      st.charge_states_found.Nodup ∧
      (∀ z : ℤ, z ∈ st.charge_states_found ↔
        z ∈ ([⟨500, 2, 997⟩] : List Observation).map Observation.charge) :=
  summary_stats_sound [⟨500, 2, 997⟩] (by simp)

/-- C8: the extractor validates nothing about the charge: any charge with
a present m/z is passed through as given, and charge `0` yields an
observation with neutral mass `0` rather than an error. -/
theorem charge_passthrough (mzv : ℚ) (z : ℤ) :
    extract_precursor_data (mkIonDoc mzv z)
      = ⟨[mzv], [z], [mzv * (z : ℚ) - (z : ℚ) * PROTON_MASS]⟩ ∧
    extract_precursor_data (mkIonDoc mzv 0)
      = ⟨[mzv], [(0 : ℤ)], [(0 : ℚ)]⟩ := by
  constructor
  · rfl
  · rw [extract_eq_docObs]
    simp [docObs, mkIonDoc, spectrumObs, precursorsOf, ionsOf,
      precursorObs, ionObs]

/-- C9: the extractor and the aggregator are deterministic functions of
their input, and processing a batch of documents treats each document
independently of the others. -/
theorem core_purity (d₁ d₂ : SpectralDocument) (hd : d₁ = d₂)
    (p₁ p₂ : List ℚ) (c₁ c₂ : List ℤ) (n₁ n₂ : List ℚ)
    (hp : p₁ = p₂) (hc : c₁ = c₂) (hn : n₁ = n₂)
    (docs : List SpectralDocument) (i : ℕ) (hi : i < docs.length)
    (hi2 : i < (docs.map extract_precursor_data).length) :
    extract_precursor_data d₁ = extract_precursor_data d₂ ∧
    get_summary_stats p₁ c₁ n₁ = get_summary_stats p₂ c₂ n₂ ∧
    (docs.map extract_precursor_data).get ⟨i, hi2⟩
      = extract_precursor_data (docs.get ⟨i, hi⟩) := by
  subst hd; subst hp; subst hc; subst hn
  refine ⟨rfl, rfl, ?_⟩
  simp [List.get_eq_getElem, List.getElem_map]

/-- C9 witness: determinism and batch independence at concrete inputs. -/
theorem core_purity_witness :
    extract_precursor_data [] = extract_precursor_data [] ∧
    get_summary_stats [] [] [] = get_summary_stats [] [] [] ∧
    (([([] : SpectralDocument)]).map extract_precursor_data).get
        ⟨0, by simp⟩
      = extract_precursor_data (([([] : SpectralDocument)]).get
        ⟨0, by simp⟩) :=
  core_purity [] [] rfl [] [] [] [] [] [] rfl rfl rfl
    [[]] 0 (by simp) (by simp)

/-- C10: the extractor's three output lists always have equal length, and
the i-th entries of all three come from the same (i-th qualifying)
selected-ion descriptor. -/
theorem alignment_invariant (doc : SpectralDocument) (i : ℕ)
    (h : i < (qualifyingIons doc).length) :
    (extract_precursor_data doc).precursor_mz.length
      = (qualifyingIons doc).length ∧
    (extract_precursor_data doc).charge_states.length
      = (qualifyingIons doc).length ∧
    (extract_precursor_data doc).neutral_masses.length
      = (qualifyingIons doc).length ∧
    ∃ (hp : i < (extract_precursor_data doc).precursor_mz.length)
      (hc : i < (extract_precursor_data doc).charge_states.length)
      (hn : i < (extract_precursor_data doc).neutral_masses.length),
      (extract_precursor_data doc).precursor_mz.get ⟨i, hp⟩
        = ((qualifyingIons doc).get ⟨i, h⟩).mz.getD 0 ∧
      (extract_precursor_data doc).charge_states.get ⟨i, hc⟩
        = ((qualifyingIons doc).get ⟨i, h⟩).chargeState.getD 0 ∧
      (extract_precursor_data doc).neutral_masses.get ⟨i, hn⟩
        = ((qualifyingIons doc).get ⟨i, h⟩).mz.getD 0
            * ((((qualifyingIons doc).get ⟨i, h⟩).chargeState.getD 0 : ℤ) : ℚ)
          - ((((qualifyingIons doc).get ⟨i, h⟩).chargeState.getD 0 : ℤ) : ℚ)
              * PROTON_MASS := by
  have he := extract_eq_docObs doc
  have hq := docObs_eq_map_qualifyingIons doc
  have hlen : (docObs doc).length = (qualifyingIons doc).length := by
    rw [hq]; simp
  refine ⟨by rw [he]; simpa using hlen, by rw [he]; simpa using hlen,
    by rw [he]; simpa using hlen, ?_⟩
  have hp : i < (extract_precursor_data doc).precursor_mz.length := by
    rw [he]; simpa using hlen ▸ h
  have hc : i < (extract_precursor_data doc).charge_states.length := by
    rw [he]; simpa using hlen ▸ h
  have hn : i < (extract_precursor_data doc).neutral_masses.length := by
    rw [he]; simpa using hlen ▸ h
  refine ⟨hp, hc, hn, ?_, ?_, ?_⟩ <;>
    simp only [he, hq, List.get_eq_getElem, List.getElem_map] <;> rfl

/-- C10 witness: alignment at a concrete one-ion document. -/
theorem alignment_invariant_witness :
    (extract_precursor_data (mkIonDoc 500 2)).precursor_mz.length
      = (qualifyingIons (mkIonDoc 500 2)).length ∧
    (extract_precursor_data (mkIonDoc 500 2)).charge_states.length
      = (qualifyingIons (mkIonDoc 500 2)).length ∧
    (extract_precursor_data (mkIonDoc 500 2)).neutral_masses.length
      = (qualifyingIons (mkIonDoc 500 2)).length ∧
    ∃ (hp : 0 < (extract_precursor_data (mkIonDoc 500 2)).precursor_mz.length)
      (hc : 0 < (extract_precursor_data (mkIonDoc 500 2)).charge_states.length)
      (hn : 0 < (extract_precursor_data (mkIonDoc 500 2)).neutral_masses.length),
      (extract_precursor_data (mkIonDoc 500 2)).precursor_mz.get ⟨0, hp⟩
        = ((qualifyingIons (mkIonDoc 500 2)).get ⟨0, by decide⟩).mz.getD 0 ∧
      (extract_precursor_data (mkIonDoc 500 2)).charge_states.get ⟨0, hc⟩
        = ((qualifyingIons (mkIonDoc 500 2)).get
            ⟨0, by decide⟩).chargeState.getD 0 ∧
      (extract_precursor_data (mkIonDoc 500 2)).neutral_masses.get ⟨0, hn⟩
        = ((qualifyingIons (mkIonDoc 500 2)).get ⟨0, by decide⟩).mz.getD 0
            * ((((qualifyingIons (mkIonDoc 500 2)).get
                ⟨0, by decide⟩).chargeState.getD 0 : ℤ) : ℚ)
          - ((((qualifyingIons (mkIonDoc 500 2)).get
                ⟨0, by decide⟩).chargeState.getD 0 : ℤ) : ℚ)
              * PROTON_MASS :=
  alignment_invariant (mkIonDoc 500 2) 0 (by decide)

end PrecursorViewer
